import Mathlib

/-!
# Shallow embedding of the SAT_algorithms repository

Embeds the satisfiability core of the repository — `resolution.py`
(resolution-only refutation), `dp.py` (the Davis–Putnam variant) and
`dpll.py` (DPLL search with the C-SAT heuristic) — as executable Lean
functions, and proves or refutes the frozen specification claims about
them.

Modelling conventions, stated once here:

* A literal is an `Int`, a clause a `List Int`, a formula a `List` of
  clauses, exactly as the Python lists of signed integers.
* A Python assignment dict always stores the value `True`; only its keys
  and their insertion order matter, so an assignment is a `List Int` of
  keys in insertion order.
* Python `set` iteration order is unspecified; wherever the source
  iterates a set we fix first-occurrence order (`dedupFirst`).  No claim
  below depends on which order is chosen.
* Loops whose bound is not structural carry explicit fuel.  For the two
  unit-propagation loops a sufficient fuel (`length + 1`) is supplied by
  the wrapper and proved sufficient; for the saturation loops of
  `resolution` and `davis_putnam` (which need not terminate in general)
  the fuel is a parameter and `none` means the bound was exhausted.
* The C-SAT heuristic adds floating-point `log(1 + 1/(4^k - 2^(k+1)))`
  weights.  Since `log` is strictly monotone and the added terms are
  logs, comparing the real-valued sums is the same as comparing the
  exact rational products of `1 + 1/(4^k - 2^(k+1))`; the model scores
  with those products.  Only IEEE rounding of near-ties escapes this
  model, which is why the heuristic claim itself is left unformalised.
-/

/-- A clause: a list of nonzero signed integer literals (zero is rejected
by the input collaborator, but the model is total and does not assume it
unless a theorem says so). -/
abbrev Clause := List Int

/-- A formula: a list of clauses. -/
abbrev Formula := List Clause

/-- Insert a key into an assignment (Python `d[l] = True`): a re-inserted
key keeps its position, a new key is appended. -/
def insertA (a : List Int) (l : Int) : List Int :=
  if l ∈ a then a else a ++ [l]

/-- Python `dict.update`: fold the other assignment's keys in, in order. -/
def updateA (a b : List Int) : List Int := b.foldl insertA a

/-- Helper for `dedupFirst`: drop elements already seen. -/
def dedupAux {α : Type} [DecidableEq α] (seen : List α) : List α → List α
  | [] => []
  | x :: r => if x ∈ seen then dedupAux seen r else x :: dedupAux (x :: seen) r

/-- Deduplicate keeping first occurrences: the fixed iteration order this
model assigns to a Python `set` built from a list. -/
def dedupFirst {α : Type} [DecidableEq α] (l : List α) : List α := dedupAux [] l

/-- `is_redundant_clause`, written identically in `dp.py` and
`resolution.py`: the clause contains a literal and its negation. -/
def is_redundant_clause (c : Clause) : Bool :=
  c.any (fun l => c.any (fun o => l == -o))

/-- `itertools.combinations(clauses, 2)` in `resolution.py`, and the
index-pair comprehension `[(clauses[i], clauses[j]) for i < j]` in
`dp.py`: ordered pairs with the first component earlier in the list. -/
def allPairs {α : Type} : List α → List (α × α)
  | [] => []
  | c :: rest => rest.map (fun d => (c, d)) ++ allPairs rest

/-- One insertion step of insertion sort. -/
def insertSorted (x : Int) : List Int → List Int
  | [] => [x]
  | y :: r => if x ≤ y then x :: y :: r else y :: insertSorted x r

/-- Python `sorted` on a clause (ascending). -/
def sortC (c : Clause) : Clause := c.foldr insertSorted []

/-- All literal occurrences of a formula, in order (the flattening
comprehensions the Python files build). -/
def flatLits (f : Formula) : List Int := f.flatMap id

namespace Res

/-- `resolve` from `resolution.py`: `list(set(c1 + c2) - {l, -l})`, the set
modelled in first-occurrence order. -/
def resolve (c1 c2 : Clause) (l : Int) : Clause :=
  (dedupFirst (c1 ++ c2)).filter (fun x => !(x == l) && !(x == -l))

/-- Loop body of `find_resolvents` from `resolution.py`; `c1` is carried
unchanged while its literals are scanned. -/
def find_go (c1 c2 : Clause) : List Int → List Clause → List Clause
  | [], acc => acc
  | l :: rest, acc =>
    if (-l) ∈ c2 then
      let r := resolve c1 c2 l
      if r ∉ acc ∧ is_redundant_clause r = false then find_go c1 c2 rest (acc ++ [r])
      else find_go c1 c2 rest acc
    else find_go c1 c2 rest acc

/-- `find_resolvents` from `resolution.py`: one candidate per literal of
`c1` whose negation is in `c2`, dropping tautologies and duplicates (the
empty resolvent is kept). -/
def find_resolvents (c1 c2 : Clause) : List Clause :=
  find_go c1 c2 c1 []

/-- Inner loop of `resolution` over one pair's resolvents: `none` means
the empty resolvent was found (UNSAT), otherwise the accumulated new
sorted resolvents. -/
def process : List Clause → List Clause → List Clause → Option (List Clause)
  | [], _, acc => some acc
  | r :: rs, cset, acc =>
    if r = [] then none
    else
      let s := sortC r
      if s ∉ cset ∧ s ∉ acc then process rs cset (acc ++ [s])
      else process rs cset acc

/-- One saturation round of `resolution`: all pairs, short-circuiting on
an empty resolvent. -/
def res_round : List (Clause × Clause) → List Clause → List Clause → Option (List Clause)
  | [], _, acc => some acc
  | (c1, c2) :: rest, cset, acc =>
    match process (find_resolvents c1 c2) cset acc with
    | none => none
    | some acc2 => res_round rest cset acc2

/-- The `while True` loop of `resolution` from `resolution.py`, fueled by
the round count: `some 0` = UNSAT, `some 1` = SAT, `none` = fuel spent. -/
def res_loop : Nat → List Clause → List Clause → Option Nat
  | 0, _, _ => none
  | n + 1, clauses, cset =>
    match res_round (allPairs clauses) cset [] with
    | none => some 0
    | some newC =>
      if newC = [] then some 1
      else res_loop n (clauses ++ newC) (cset ++ newC)

/-- `resolution` from `resolution.py` (the initial `clause_set` is the
deduplicated clause list, as `set(map(tuple, clauses))`). -/
def resolution_run (fuel : Nat) (clauses : List Clause) : Option Nat :=
  res_loop fuel clauses (dedupFirst clauses)

end Res

namespace DP

/-- The unit clauses captured at the top of each pass of `dp.py`'s
`unit_propagation` (`[c for c in clauses if len(c) == 1]`), as their
literals in order. -/
def dp_unit_literals : Formula → List Int
  | [] => []
  | [l] :: rest => l :: dp_unit_literals rest
  | _ :: rest => dp_unit_literals rest

/-- Apply one captured unit literal: drop every clause containing it, then
remove the first occurrence of its negation from each remaining clause
(`list.remove`). -/
def dp_apply_unit (cs : Formula) (l : Int) : Formula :=
  (cs.filter (fun c => !(c.contains l))).map (fun c => c.erase (-l))

/-- The `for unit in unit_clauses` loop: the captured literals are applied
one after another to the evolving clause list. -/
def dp_pass : List Int → Formula × List Int → Formula × List Int
  | [], st => st
  | l :: rest, (cs, a) => dp_pass rest (dp_apply_unit cs l, insertA a l)

/-- The `while True` loop of `dp.py`'s `unit_propagation`, fueled (each
pass removes at least the first unit clause, so `length + 1` passes are
enough; the wrapper supplies that). -/
def dp_up_go : Nat → Formula → List Int → Formula × List Int
  | 0, cs, a => (cs, a)
  | n + 1, cs, a =>
    match dp_unit_literals cs with
    | [] => (cs, a)
    | l :: rest =>
      let st := dp_pass (l :: rest) (cs, a)
      dp_up_go n st.1 st.2

/-- `unit_propagation` from `dp.py`.  Unlike the `dpll.py` version it has
no contradiction signal: an emptied clause stays in the list and further
units keep being propagated. -/
def unit_propagation (cs : Formula) : Formula × List Int :=
  dp_up_go (cs.length + 1) cs []

/-- `monotone_literal_fixing` from `dp.py`: the `Counter` keys in
first-occurrence order; purity is tested against the original counter
while satisfied clauses are filtered from the evolving list. -/
def monotone_literal_fixing (cs : Formula) : Formula × List Int :=
  (dedupFirst (flatLits cs)).foldl
    (fun st l =>
      if (-l) ∈ flatLits cs then st
      else (st.1.filter (fun c => !(c.contains l)), insertA st.2 l))
    (cs, [])

/-- Loop body of `find_resolvents` from `dp.py`.  The guard
`if resolvent and ...` is Python truthiness: the empty resolvent is
discarded along with tautologies and duplicates. -/
def find_resolvents_go (c1 c2 : Clause) : List Int → List Clause → List Clause
  | [], acc => acc
  | l :: rest, acc =>
    if (-l) ∈ c2 then
      let r := Res.resolve c1 c2 l
      if r ≠ [] ∧ is_redundant_clause r = false ∧ r ∉ acc then
        find_resolvents_go c1 c2 rest (acc ++ [r])
      else find_resolvents_go c1 c2 rest acc
    else find_resolvents_go c1 c2 rest acc

/-- `find_resolvents` from `dp.py` (`dp.py` inlines the same
`list(set(c1 + c2) - {l, -l})` expression that `resolution.py` names
`resolve`). -/
def find_resolvents (c1 c2 : Clause) : List Clause :=
  find_resolvents_go c1 c2 c1 []

/-- Inner loop of the resolution step of `davis_putnam` over one pair's
resolvents: `none` on an empty resolvent (dead code here, since
`find_resolvents` already dropped it — kept to mirror the source), else
the new sorted resolvents accumulated as a set. -/
def dp_process : List Clause → List Clause → Option (List Clause)
  | [], acc => some acc
  | r :: rs, acc =>
    if r = [] then none
    else
      let s := sortC r
      dp_process rs (if s ∈ acc then acc else acc ++ [s])

/-- The resolution step of `davis_putnam` over all pairs. -/
def dp_round : List (Clause × Clause) → List Clause → Option (List Clause)
  | [], acc => some acc
  | (c1, c2) :: rest, acc =>
    match dp_process (find_resolvents c1 c2) acc with
    | none => none
    | some acc2 => dp_round rest acc2

/-- The `while clauses` loop of `davis_putnam` from `dp.py`, fueled by
iteration count: `some (1, a)` = SAT with assignment, `some (0, a)` =
UNSAT, `none` = fuel spent. -/
def dp_loop : Nat → Formula → List Int → List Clause → Option (Nat × List Int)
  | 0, _, _, _ => none
  | n + 1, clauses, final, prev =>
    if clauses = [] then some (1, final)
    else
      let st1 := unit_propagation clauses
      let final1 := updateA final st1.2
      let st2 := monotone_literal_fixing st1.1
      let final2 := updateA final1 st2.2
      if st2.1 = [] then some (1, final2)
      else if [] ∈ st2.1 then some (0, [])
      else
        match dp_round (allPairs st2.1) [] with
        | none => some (0, [])
        | some newC =>
          if newC.all (fun c => decide (c ∈ prev)) && prev.all (fun c => decide (c ∈ newC)) then
            some (1, final2)
          else
            let cs3 := (dedupFirst (st2.1 ++ newC)).filter (fun c => !(is_redundant_clause c))
            let st4 := unit_propagation cs3
            let st5 := monotone_literal_fixing st4.1
            let final3 := updateA (updateA final2 st4.2) st5.2
            if st5.1 = [] then some (1, final3)
            else dp_loop n st5.1 final3 newC

/-- `davis_putnam` from `dp.py`. -/
def davis_putnam_run (fuel : Nat) (clauses : Formula) : Option (Nat × List Int) :=
  dp_loop fuel clauses [] []

end DP

namespace DPLL

/-- `negate` from `dpll.py`. -/
def negate (l : Int) : Int := -l

/-- `apply_literal` from `dpll.py`: drop satisfied clauses, remove the
negated literal from the rest; `none` as soon as a clause empties. -/
def apply_literal : Formula → Int → Option Formula
  | [], _ => some []
  | c :: rest, l =>
    if l ∈ c then apply_literal rest l
    else if negate l ∈ c then
      let c2 := c.filter (fun x => !(x == negate l))
      if c2 = [] then none
      else (apply_literal rest l).map (fun f => c2 :: f)
    else (apply_literal rest l).map (fun f => c :: f)

/-- `find_unit_clause` from `dpll.py`: the literal of the first clause of
length one. -/
def find_unit_clause : Formula → Option Int
  | [] => none
  | [l] :: _ => some l
  | _ :: rest => find_unit_clause rest

/-- The `while True` loop of `dpll.py`'s `unit_propagation`, fueled (each
step removes at least the unit clause itself, so `length + 1` steps are
enough; the wrapper supplies that).  The Python truthiness test
`if unit_clause:` also stops on the literal `0`. -/
def up_go : Nat → Formula → List Int → Option Formula × List Int
  | 0, f, acc => (some f, acc)
  | n + 1, f, acc =>
    match find_unit_clause f with
    | none => (some f, acc)
    | some l =>
      if l = 0 then (some f, acc)
      else
        match apply_literal f l with
        | none => (none, insertA acc l)
        | some f2 => up_go n f2 (insertA acc l)

/-- `unit_propagation` from `dpll.py`: `none` formula = contradiction. -/
def unit_propagation (f : Formula) : Option Formula × List Int :=
  up_go (f.length + 1) f []

/-- `unit_subsumption` from `dpll.py`: `none` on an empty clause, else
drop every clause holding a literal that is a key of the assignment. -/
def unit_subsumption (f : Formula) (a : List Int) : Option Formula :=
  if [] ∈ f then none
  else some (f.filter (fun c => !(c.any (fun l => a.contains l))))

/-- Loop body of `monotone_literal_fixing` from `dpll.py`: the `for`
iterates the original clause list while `formula` is rebound; for each
original clause, the first literal whose negation is absent from the
current formula is assigned and its clauses dropped. -/
def mlf_go : Formula → Formula → List Int → Formula × List Int
  | [], cur, a => (cur, a)
  | c :: rest, cur, a =>
    match c.find? (fun l => !((flatLits cur).contains (-l))) with
    | some l => mlf_go rest (cur.filter (fun cl => !(cl.contains l))) (insertA a l)
    | none => mlf_go rest cur a

/-- `monotone_literal_fixing` from `dpll.py`. -/
def monotone_literal_fixing (f : Formula) : Formula × List Int := mlf_go f f []

/-- The denominator `4 ** k - 2 ** (k + 1)` of the C-SAT clause weight in
`choose_literal`. -/
def weight_den (k : Nat) : Int := 4 ^ k - 2 ^ (k + 1)

/-- The C-SAT clause weight, recast multiplicatively as an exact fraction
(numerator, denominator): the code adds `log(1 + 1/(4^k - 2^(k+1)))` in
floating point; `log` is strictly monotone, so comparing sums of the logs
is comparing products of the exact values `1 + 1/d = (d + 1)/d`.  For
`k = 1` the denominator is `0` and the Python raises `ZeroDivisionError`;
that case never reaches `choose_literal` from `dpll` (claim C9), and the
total model maps it to the neutral weight. -/
def weightF (k : Nat) : Int × Int :=
  if weight_den k = 0 then (1, 1) else (weight_den k + 1, weight_den k)

/-- Multiply two fractions (no reduction needed: only comparisons are
consumed). -/
def mulF (x y : Int × Int) : Int × Int := (x.1 * y.1, x.2 * y.2)

/-- Strict comparison of fractions with positive denominators, by
cross-multiplication. -/
def ltF (x y : Int × Int) : Bool := x.1 * y.2 < y.1 * x.2

/-- `defaultdict(float)` keyed in first-touch order; `+= log w` becomes
`*= w` under the multiplicative recast (a fresh key starts from the
empty product `0 = log 1`, i.e. the fraction `1/1`). -/
def bump : List (Int × (Int × Int)) → Int → Int × Int → List (Int × (Int × Int))
  | [], l, w => [(l, w)]
  | (k, s) :: rest, l, w =>
    if k = l then (k, mulF s w) :: rest else (k, s) :: bump rest l w

/-- The score table of `choose_literal`: clauses of size 0 are skipped,
every literal of a clause of size `k` collects that clause's weight. -/
def literal_scores (f : Formula) : List (Int × (Int × Int)) :=
  f.foldl
    (fun sc c =>
      if c.length = 0 then sc
      else c.foldl (fun sc2 lit => bump sc2 lit (weightF c.length)) sc)
    []

/-- `choose_literal` from `dpll.py`: the key of maximum score; Python
`max` keeps the first maximum in iteration order. -/
def choose_literal (f : Formula) : Option Int :=
  match literal_scores f with
  | [] => none
  | p :: rest => some (rest.foldl (fun best q => if ltF best.2 q.2 then q else best) p).1

/-- The simplification prelude of `dpll` — everything before the branching
step: `Sum.inl` is an early verdict, `Sum.inr (g, a)` the simplified
formula and updated unit assignment that reach `choose_literal`. -/
def dpll_prelude (f : Formula) : (Bool × Option Formula) ⊕ (Formula × List Int) :=
  match unit_propagation f with
  | (none, _) => Sum.inl (false, none)
  | (some f1, ua) =>
    if [] ∈ f1 then Sum.inl (false, some f1)
    else
      match unit_subsumption f1 ua with
      | none => Sum.inl (false, none)
      | some f2 =>
        if [] ∈ f2 then Sum.inl (false, some f2)
        else
          match monotone_literal_fixing f2 with
          | (f3, ma) =>
            let ua2 := updateA ua ma
            if f3 = [] then Sum.inl (true, some f3)
            else if [] ∈ f3 then Sum.inl (false, some f3)
            else Sum.inr (f3, ua2)

/-- One polarity of the branching step of `dpll`: `none` = fall through
(to the other polarity or the final UNSAT return), `some r` = `dpll`
returns `r` at once.  The guard after the branch's own unit propagation
returns globally, exactly as the `return False, new_formula` in the
source; the `unit_subsumption = none` arm is unreachable because the
guard just established the branch formula has no empty clause. -/
def branch_eval (rec : Formula → Bool × Option Formula) (g : Formula)
    (ua : List Int) (l : Int) : Option (Bool × Option Formula) :=
  match apply_literal g l with
  | none => none
  | some nf =>
    match unit_propagation nf with
    | (none, _) => some (false, none)
    | (some nf1, _) =>
      if [] ∈ nf1 then some (false, some nf1)
      else
        match unit_subsumption nf1 ua with
        | none => some (false, none)
        | some nf2 =>
          match monotone_literal_fixing nf2 with
          | (nf3, _) =>
            match rec nf3 with
            | (true, ff) => some (true, ff)
            | (false, _) => none

/-- `dpll` from `dpll.py`, with recursion fuel; each recursion eliminates
the branching variable, so the wrapper's variable-count fuel suffices and
the fuel-0 arm is never reached from it. -/
def dpllF : Nat → Formula → Bool × Option Formula
  | 0, _ => (false, none)
  | n + 1, f =>
    match dpll_prelude f with
    | Sum.inl r => r
    | Sum.inr (g, ua) =>
      match choose_literal g with
      | none => (false, some g)
      | some l =>
        if l = 0 then (false, some g)
        else
          match branch_eval (dpllF n) g ua l with
          | some r => r
          | none =>
            match branch_eval (dpllF n) g ua (negate l) with
            | some r => r
            | none => (false, some g)

/-- The distinct variables of a formula. -/
def varsOf (f : Formula) : Finset Nat := ((flatLits f).map Int.natAbs).toFinset

/-- `dpll` from `dpll.py` (the `log_file` argument is I/O only and is
dropped). -/
def dpll (f : Formula) : Bool × Option Formula := dpllF ((varsOf f).card + 1) f

end DPLL

/-! ## Satisfaction, for stating what an assignment would have to do -/

/-- An assignment (set of literals made true) satisfies a formula when
every clause holds one of its literals — the spec's notion of a valid
DPLL answer. -/
def satisfies (a : List Int) (f : Formula) : Bool :=
  f.all (fun c => c.any (fun l => a.contains l))

/-! ## Concrete evaluations used by the claim verdicts -/

/-- C5: on [[1,2],[-1,2],[1,-2],[-1,-2]] the resolution engine (2 rounds),
the Davis-Putnam variant (2 iterations) and DPLL all answer UNSAT. -/
theorem c5_all_unsat :
    Res.resolution_run 2 [[1, 2], [-1, 2], [1, -2], [-1, -2]] = some 0 ∧
    DP.davis_putnam_run 2 [[1, 2], [-1, 2], [1, -2], [-1, -2]] = some (0, []) ∧
    (DPLL.dpll [[1, 2], [-1, 2], [1, -2], [-1, -2]]).1 = false :=
  ⟨rfl, rfl, rfl⟩

/-- C1 counterexample: on [[1]] dpll reports SAT but hands back the empty
formula; read as an assignment it satisfies no literal of the input
clause, so it is not a satisfying partial assignment. -/
theorem c1_counterexample :
    DPLL.dpll [[1]] = (true, some []) ∧ satisfies [] [[1]] = false :=
  ⟨rfl, rfl⟩

/-- C2 counterexample: the resolution engine answers SAT (1) on the
formula [[]] that contains the empty clause from the start. -/
theorem c2_counterexample : Res.resolution_run 1 [[]] = some 1 := rfl

/-- C3 counterexample: dp.py's resolvent generator produces no resolvent
at all for the singleton complementary clauses [1] and [-1] — the empty
resolvent is discarded by its truthiness guard. -/
theorem c3_counterexample : DP.find_resolvents [1] [-1] = [] := rfl

/-- C4 counterexample: dp.py's unit propagation keeps going after a
clause empties.  Applying the first unit 1 to [[1],[-1],[2],[3,-2]]
already empties [-1], yet the loop then assigns -1, 2 and the newly
created unit 3 before returning. -/
theorem c4_counterexample :
    DP.dp_apply_unit [[1], [-1], [2], [3, -2]] 1 = [[], [2], [3, -2]] ∧
    DP.unit_propagation [[1], [-1], [2], [3, -2]] = ([[]], [1, -1, 2, 3]) :=
  ⟨rfl, rfl⟩

/-- C6 counterexample: dp.py's generator excludes the empty resolvent of
[2] and [-2] although it is neither tautologous nor a duplicate. -/
theorem c6_counterexample : DP.find_resolvents [2] [-2] = [] := rfl

/-! ## DPLL: the SAT result always carries the empty formula (C1, C10) -/

/-- The prelude's early verdicts: `true` only comes with `some []`. -/
theorem dpll_prelude_inl_true {f : Formula} {r : Bool × Option Formula}
    (h : DPLL.dpll_prelude f = Sum.inl r) (hb : r.1 = true) : r.2 = some [] := by
  unfold DPLL.dpll_prelude at h
  iterate 12 (all_goals try split at h)
  all_goals cases h
  all_goals simp_all

/-- A branch can only return a `true` verdict it got from the recursive
call, with the same payload. -/
theorem branch_eval_true {rec : Formula → Bool × Option Formula} {g : Formula}
    {ua : List Int} {l : Int} {r : Bool × Option Formula}
    (h : DPLL.branch_eval rec g ua l = some r) (hb : r.1 = true) :
    ∃ nf, rec nf = (true, r.2) := by
  unfold DPLL.branch_eval at h
  iterate 12 (all_goals try split at h)
  all_goals cases h
  all_goals simp_all
  all_goals exact ⟨_, by assumption⟩

/-- Whenever the fueled dpll answers SAT, its second component is the
empty formula. -/
theorem dpllF_sat_empty :
    ∀ (n : Nat) (f : Formula),
      (DPLL.dpllF n f).1 = true → (DPLL.dpllF n f).2 = some [] := by
  intro n
  induction n with
  | zero => intro f h; simp [DPLL.dpllF] at h
  | succ n ih =>
    intro f h
    rw [DPLL.dpllF] at h ⊢
    rcases hpre : DPLL.dpll_prelude f with r | ⟨g, ua⟩
    · rw [hpre] at h
      exact dpll_prelude_inl_true hpre h
    · rw [hpre] at h
      dsimp only at h ⊢
      rcases hc : DPLL.choose_literal g with _ | l
      · rw [hc] at h
        simp at h
      · rw [hc] at h
        dsimp only at h ⊢
        by_cases hl : l = 0
        · rw [if_pos hl] at h
          simp at h
        · rw [if_neg hl] at h ⊢
          rcases hb1 : DPLL.branch_eval (DPLL.dpllF n) g ua l with _ | r1
          · rw [hb1] at h
            dsimp only at h ⊢
            rcases hb2 : DPLL.branch_eval (DPLL.dpllF n) g ua (DPLL.negate l) with _ | r2
            · rw [hb2] at h
              simp at h
            · rw [hb2] at h
              dsimp only at h ⊢
              obtain ⟨nf, hnf⟩ := branch_eval_true hb2 h
              have h1 : (DPLL.dpllF n nf).1 = true := by rw [hnf]
              have h2 := ih nf h1
              rw [hnf] at h2
              exact h2
          · rw [hb1] at h
            dsimp only at h ⊢
            obtain ⟨nf, hnf⟩ := branch_eval_true hb1 h
            have h1 : (DPLL.dpllF n nf).1 = true := by rw [hnf]
            have h2 := ih nf h1
            rw [hnf] at h2
            exact h2

/-- C1 (amended): whenever the DPLL engine reports SAT, the second
component of its result is the empty formula — not an assignment; the
unit/monotone assignments it accumulates are never returned. -/
theorem c1_sat_second_component_is_empty_formula :
    ∀ (fuel : Nat) (f : Formula),
      (DPLL.dpllF fuel f).1 = true → (DPLL.dpllF fuel f).2 = some [] :=
  dpllF_sat_empty

/-- C1 witness: the hypotheses of the amended claim hold at [[1]]. -/
theorem c1_witness :
    (DPLL.dpllF 1 [[1]]).1 = true ∧ (DPLL.dpllF 1 [[1]]).2 = some [] :=
  ⟨rfl, c1_sat_second_component_is_empty_formula 1 [[1]] rfl⟩

/-- C10: for every input formula, a True verdict of dpll comes with the
empty clause list as second component, not a satisfying assignment. -/
theorem c10_dpll_true_returns_empty_formula :
    ∀ f : Formula, (DPLL.dpll f).1 = true → (DPLL.dpll f).2 = some [] :=
  fun f => dpllF_sat_empty ((DPLL.varsOf f).card + 1) f

/-- C10 witness: dpll on the empty formula returns True with []. -/
theorem c10_witness : (DPLL.dpll ([] : Formula)).2 = some [] :=
  c10_dpll_true_returns_empty_formula [] rfl

/-! ## DPLL: an empty clause in the input forces the False verdict (C2) -/

/-- `apply_literal` keeps a pre-existing empty clause (or fails outright). -/
theorem apply_literal_empty {l : Int} :
    ∀ {f : Formula}, [] ∈ f →
      DPLL.apply_literal f l = none ∨
        ∃ f2, DPLL.apply_literal f l = some f2 ∧ [] ∈ f2 := by
  intro f h
  induction f with
  | nil => cases h
  | cons c rest ih =>
    rcases List.mem_cons.mp h with hc | hc
    · subst hc
      rw [DPLL.apply_literal]
      simp only [List.not_mem_nil, if_false]
      rcases har : DPLL.apply_literal rest l with _ | f2
      · left; rfl
      · right; exact ⟨[] :: f2, rfl, List.mem_cons_self _ _⟩
    · rw [DPLL.apply_literal]
      by_cases h1 : l ∈ c
      · rw [if_pos h1]; exact ih hc
      · rw [if_neg h1]
        by_cases h2 : DPLL.negate l ∈ c
        · rw [if_pos h2]
          by_cases h3 : c.filter (fun x => !(x == DPLL.negate l)) = []
          · rw [if_pos h3]; left; rfl
          · rw [if_neg h3]
            rcases ih hc with ha | ⟨f2, ha, hf2⟩
            · left; rw [ha]; rfl
            · right
              exact ⟨_ :: f2, by rw [ha]; rfl, List.mem_cons_of_mem _ hf2⟩
        · rw [if_neg h2]
          rcases ih hc with ha | ⟨f2, ha, hf2⟩
          · left; rw [ha]; rfl
          · right
            exact ⟨c :: f2, by rw [ha]; rfl, List.mem_cons_of_mem _ hf2⟩

/-- The unit-propagation loop keeps a pre-existing empty clause (or
reports the contradiction). -/
theorem up_go_empty :
    ∀ (n : Nat) {f : Formula} (acc : List Int), [] ∈ f →
      (DPLL.up_go n f acc).1 = none ∨
        ∃ f2, (DPLL.up_go n f acc).1 = some f2 ∧ [] ∈ f2 := by
  intro n
  induction n with
  | zero => intro f acc h; right; exact ⟨f, rfl, h⟩
  | succ n ih =>
    intro f acc h
    rw [DPLL.up_go]
    rcases hu : DPLL.find_unit_clause f with _ | l
    · right; exact ⟨f, rfl, h⟩
    · dsimp only
      by_cases hl : l = 0
      · rw [if_pos hl]; right; exact ⟨f, rfl, h⟩
      · rw [if_neg hl]
        rcases apply_literal_empty (l := l) h with ha | ⟨f2, ha, hf2⟩
        · rw [ha]; left; rfl
        · rw [ha]; exact ih (insertA acc l) hf2

/-- With an empty clause in the input, the prelude returns an early False
verdict. -/
theorem dpll_prelude_empty {f : Formula} (h : [] ∈ f) :
    ∃ r, DPLL.dpll_prelude f = Sum.inl (false, r) := by
  unfold DPLL.dpll_prelude
  have hup := up_go_empty (f.length + 1) (f := f) ([] : List Int) h
  rcases hu : DPLL.unit_propagation f with ⟨o, a⟩
  unfold DPLL.unit_propagation at hu
  rw [hu] at hup
  rcases hup with h1 | ⟨f2, h1, hf2⟩
  · simp only at h1
    subst h1
    exact ⟨none, rfl⟩
  · simp only at h1
    subst h1
    refine ⟨some f2, ?_⟩
    simp [hf2]

/-- C2 (amended): a formula containing the empty clause makes dpll return
the False verdict at once, before any branching; the resolution engine
has no check for a pre-existing empty clause — on [[]] it returns SAT,
while on an input whose other clauses yield an empty resolvent it still
returns UNSAT, as [[], [1], [-1]] does through the [1]/[-1] pair. -/
theorem c2_empty_clause_verdicts :
    (∀ (fuel : Nat) (f : Formula), [] ∈ f → (DPLL.dpllF fuel f).1 = false) ∧
      Res.resolution_run 1 [[]] = some 1 ∧
      Res.resolution_run 1 [[], [1], [-1]] = some 0 := by
  refine ⟨?_, rfl, rfl⟩
  intro fuel f h
  cases fuel with
  | zero => rfl
  | succ n =>
    obtain ⟨r, hr⟩ := dpll_prelude_empty h
    rw [DPLL.dpllF, hr]

/-- C2 witness: the amended claim's universal half discharged at [[]],
next to the concrete resolution verdict there. -/
theorem c2_witness :
    (DPLL.dpllF 1 [[]]).1 = false ∧ Res.resolution_run 1 [[]] = some 1 :=
  ⟨c2_empty_clause_verdicts.1 1 [[]] (List.mem_singleton.mpr rfl),
    c2_empty_clause_verdicts.2.1⟩

/-! ## Resolution: complementary singletons yield the empty resolvent (C3) -/

/-- Resolving `[a]` against `[-a]` on `a` gives the empty clause. -/
theorem resolve_pair_nil (a : Int) : Res.resolve [a] [-a] a = [] := by
  unfold Res.resolve dedupFirst
  by_cases h : (-a : Int) = a
  · simp [dedupAux, h]
  · simp [dedupAux, h]

/-- `resolution.py`'s generator keeps the empty resolvent of a singleton
complementary pair, and nothing else. -/
theorem find_resolvents_singletons (l : Int) :
    Res.find_resolvents [l] [-l] = [[]] := by
  unfold Res.find_resolvents
  rw [Res.find_go]
  rw [if_pos (List.mem_singleton.mpr rfl)]
  simp [resolve_pair_nil, is_redundant_clause, Res.find_go]

/-- The resolvent loop reports `none` as soon as the empty resolvent is
among the candidates. -/
theorem process_none :
    ∀ (rs cset acc : List Clause), [] ∈ rs → Res.process rs cset acc = none := by
  intro rs
  induction rs with
  | nil => intro _ _ h; cases h
  | cons r rest ih =>
    intro cset acc h
    rw [Res.process]
    rcases List.mem_cons.mp h with hr | hr
    · rw [if_pos hr.symm]
    · by_cases h0 : r = []
      · rw [if_pos h0]
      · rw [if_neg h0]
        dsimp only
        by_cases hs : sortC r ∉ cset ∧ sortC r ∉ acc
        · rw [if_pos hs]; exact ih _ _ hr
        · rw [if_neg hs]; exact ih _ _ hr

/-- A round reports `none` as soon as some pair in the list produces the
empty resolvent. -/
theorem res_round_none (p : Clause × Clause) :
    ∀ (pairs : List (Clause × Clause)) (cset acc : List Clause),
      p ∈ pairs → [] ∈ Res.find_resolvents p.1 p.2 →
      Res.res_round pairs cset acc = none := by
  intro pairs
  induction pairs with
  | nil => intro _ _ h; cases h
  | cons q rest ih =>
    intro cset acc hmem hres
    obtain ⟨c1, c2⟩ := q
    rw [Res.res_round]
    rcases List.mem_cons.mp hmem with hq | hq
    · rw [hq] at hres
      dsimp only at hres
      rw [process_none _ _ _ hres]
    · rcases hp : Res.process (Res.find_resolvents c1 c2) cset acc with _ | acc2
      · rfl
      · exact ih _ _ hq hres

/-- Two distinct members of a list appear as a pair in `allPairs`, in one
of the two orders. -/
theorem allPairs_mem {α : Type} [DecidableEq α] {a b : α} :
    ∀ {cs : List α}, a ∈ cs → b ∈ cs → a ≠ b →
      (a, b) ∈ allPairs cs ∨ (b, a) ∈ allPairs cs := by
  intro cs
  induction cs with
  | nil => intro h; cases h
  | cons c rest ih =>
    intro ha hb hne
    rw [allPairs]
    rcases List.mem_cons.mp ha with ha1 | ha1
    · have hbr : b ∈ rest := by
        rcases List.mem_cons.mp hb with h1 | h1
        · exact absurd (ha1.trans h1.symm) hne
        · exact h1
      left
      rw [List.mem_append]
      left
      rw [List.mem_map]
      exact ⟨b, hbr, by rw [ha1]⟩
    · rcases List.mem_cons.mp hb with hb1 | hb1
      · right
        rw [List.mem_append]
        left
        rw [List.mem_map]
        exact ⟨a, ha1, by rw [hb1]⟩
      · rcases ih ha1 hb1 hne with h | h
        · left; rw [List.mem_append]; right; exact h
        · right; rw [List.mem_append]; right; exact h

/-- C3 (amended): for a singleton complementary pair present in the
clause set, `resolution.py`'s generator produces exactly the empty
resolvent and the resolution loop terminates with UNSAT in its first
round.  (`dp.py`'s generator instead discards the empty resolvent — see
the counterexample.) -/
theorem c3_resolution_short_circuits :
    ∀ (l : Int) (cs : List Clause) (n : Nat),
      l ≠ 0 → [l] ∈ cs → [-l] ∈ cs →
      Res.find_resolvents [l] [-l] = [[]] ∧
        Res.resolution_run (n + 1) cs = some 0 := by
  intro l cs n hl h1 h2
  refine ⟨find_resolvents_singletons l, ?_⟩
  unfold Res.resolution_run
  rw [Res.res_loop]
  have hne : ([l] : Clause) ≠ [-l] := by
    intro he
    apply hl
    have h3 : l = -l := by injection he
    omega
  have hmem1 : [] ∈ Res.find_resolvents [l] [-l] := by
    rw [find_resolvents_singletons l]
    exact List.mem_singleton.mpr rfl
  have hsym : Res.find_resolvents [-l] [l] = [[]] := by
    have h4 := find_resolvents_singletons (-l)
    rwa [neg_neg] at h4
  have hmem2 : [] ∈ Res.find_resolvents [-l] [l] := by
    rw [hsym]
    exact List.mem_singleton.mpr rfl
  rcases allPairs_mem h1 h2 hne with hp | hp
  · rw [res_round_none ([l], [-l]) _ _ _ hp hmem1]
  · rw [res_round_none ([-l], [l]) _ _ _ hp hmem2]

/-- C3 witness: the amended claim applied at l = 1 over [[1], [-1]]. -/
theorem c3_witness :
    Res.find_resolvents [1] [-1] = [[]] ∧
      Res.resolution_run 1 [[1], [-1]] = some 0 :=
  c3_resolution_short_circuits 1 [[1], [-1]] 0 (by decide) (by decide) (by decide)

/-! ## dpll.py unit propagation stops on the contradiction (C4) -/

/-- If removing the forced literal's negation would empty some clause,
`apply_literal` reports the contradiction (`None`). -/
theorem apply_literal_contradiction :
    ∀ (f : Formula) (l : Int),
      (∃ c, c ∈ f ∧ l ∉ c ∧ DPLL.negate l ∈ c ∧
        c.filter (fun x => !(x == DPLL.negate l)) = []) →
      DPLL.apply_literal f l = none := by
  intro f l h
  obtain ⟨c, hc, h1, h2, h3⟩ := h
  induction f with
  | nil => cases hc
  | cons c0 rest ih =>
    rcases List.mem_cons.mp hc with he | he
    · subst he
      simp [DPLL.apply_literal, h1, h2, h3]
    · rw [DPLL.apply_literal]
      by_cases hl1 : l ∈ c0
      · rw [if_pos hl1]; exact ih he
      · rw [if_neg hl1]
        by_cases hl2 : DPLL.negate l ∈ c0
        · rw [if_pos hl2]
          dsimp only
          by_cases hl3 : c0.filter (fun x => !(x == DPLL.negate l)) = []
          · rw [if_pos hl3]
          · rw [if_neg hl3, ih he]; rfl
        · rw [if_neg hl2, ih he]; rfl

/-- When the found unit's application contradicts, the loop stops at once
with the `None` signal and only the units assigned so far. -/
theorem up_go_stops {n : Nat} {f : Formula} {acc : List Int} {l : Int}
    (h1 : DPLL.find_unit_clause f = some l) (h2 : l ≠ 0)
    (h3 : DPLL.apply_literal f l = none) :
    DPLL.up_go (n + 1) f acc = (none, insertA acc l) := by
  rw [DPLL.up_go, h1]
  dsimp only
  rw [if_neg h2, h3]

/-- C4 (amended): in dpll.py, when removing a forced literal's negation
empties a clause, apply_literal returns the contradiction signal and the
unit-propagation loop stops immediately, reporting None rather than
propagating further units.  (dp.py's version keeps going — see the
counterexample.) -/
theorem c4_dpll_propagation_stops_on_contradiction :
    ∀ (f : Formula) (l : Int) (n : Nat) (acc : List Int),
      (∃ c, c ∈ f ∧ l ∉ c ∧ DPLL.negate l ∈ c ∧
        c.filter (fun x => !(x == DPLL.negate l)) = []) →
      DPLL.apply_literal f l = none ∧
        (DPLL.find_unit_clause f = some l → l ≠ 0 →
          DPLL.up_go (n + 1) f acc = (none, insertA acc l)) := by
  intro f l n acc h
  have ha := apply_literal_contradiction f l h
  exact ⟨ha, fun hu hl => up_go_stops hu hl ha⟩

/-- C4 witness: the amended claim at the formula [[2], [-2]] with the
unit literal 2. -/
theorem c4_witness :
    DPLL.apply_literal [[2], [-2]] 2 = none ∧
      DPLL.up_go 1 [[2], [-2]] [] = (none, insertA [] 2) := by
  have h := c4_dpll_propagation_stops_on_contradiction [[2], [-2]] 2 0 []
    ⟨[-2], by decide, by decide, by decide, by decide⟩
  exact ⟨h.1, h.2 (by decide) (by decide)⟩

/-! ## The resolvent generators characterised (C6) -/

/-- Membership in the seen-accumulator dedup. -/
theorem dedupAux_mem {α : Type} [DecidableEq α] (x : α) :
    ∀ (l seen : List α), x ∈ dedupAux seen l ↔ x ∈ l ∧ x ∉ seen := by
  intro l
  induction l with
  | nil => intro seen; simp [dedupAux]
  | cons y r ih =>
    intro seen
    rw [dedupAux]
    by_cases hy : y ∈ seen
    · rw [if_pos hy, ih]
      constructor
      · rintro ⟨hx, hs⟩
        exact ⟨List.mem_cons_of_mem _ hx, hs⟩
      · rintro ⟨hx, hs⟩
        rcases List.mem_cons.mp hx with h1 | h1
        · subst h1; exact absurd hy hs
        · exact ⟨h1, hs⟩
    · rw [if_neg hy]
      constructor
      · intro hx
        rcases List.mem_cons.mp hx with h1 | h1
        · subst h1; exact ⟨List.mem_cons_self _ _, hy⟩
        · obtain ⟨ha, hb⟩ := (ih (y :: seen)).mp h1
          exact ⟨List.mem_cons_of_mem _ ha, fun hc => hb (List.mem_cons_of_mem _ hc)⟩
      · rintro ⟨hx, hs⟩
        rcases List.mem_cons.mp hx with h1 | h1
        · subst h1; exact List.mem_cons_self _ _
        · by_cases hxy : x = y
          · subst hxy; exact List.mem_cons_self _ _
          · refine List.mem_cons_of_mem _ ((ih (y :: seen)).mpr ⟨h1, ?_⟩)
            intro hc
            rcases List.mem_cons.mp hc with h2 | h2
            · exact hxy h2
            · exact hs h2

/-- `dedupFirst` preserves membership. -/
theorem dedupFirst_mem {α : Type} [DecidableEq α] {x : α} {l : List α} :
    x ∈ dedupFirst l ↔ x ∈ l := by
  rw [dedupFirst, dedupAux_mem]
  simp

/-- Membership in a resolvent: the union of the parents minus the
complementary pair. -/
theorem resolve_mem {c1 c2 : Clause} {l x : Int} :
    x ∈ Res.resolve c1 c2 l ↔ (x ∈ c1 ∨ x ∈ c2) ∧ x ≠ l ∧ x ≠ -l := by
  unfold Res.resolve
  rw [List.mem_filter, dedupFirst_mem, List.mem_append]
  simp

/-- What `resolution.py`'s generator loop accumulates: exactly the
non-tautologous candidates, one per complementary literal of the scanned
prefix, deduplicated. -/
theorem find_go_mem (c1 c2 : Clause) :
    ∀ (lits : List Int) (acc : List Clause) (r : Clause),
      r ∈ Res.find_go c1 c2 lits acc ↔
        r ∈ acc ∨ ∃ l, l ∈ lits ∧ (-l) ∈ c2 ∧ r = Res.resolve c1 c2 l ∧
          is_redundant_clause r = false := by
  intro lits
  induction lits with
  | nil => intro acc r; rw [Res.find_go]; simp
  | cons l0 rest ih =>
    intro acc r
    rw [Res.find_go]
    by_cases hneg : (-l0) ∈ c2
    · rw [if_pos hneg]
      dsimp only
      by_cases hcond : Res.resolve c1 c2 l0 ∉ acc ∧
          is_redundant_clause (Res.resolve c1 c2 l0) = false
      · rw [if_pos hcond, ih]
        constructor
        · rintro (hr | ⟨l, hl, h2, h3, h4⟩)
          · rcases List.mem_append.mp hr with h | h
            · exact Or.inl h
            · have he := List.mem_singleton.mp h
              subst he
              exact Or.inr ⟨l0, List.mem_cons_self _ _, hneg, rfl, hcond.2⟩
          · exact Or.inr ⟨l, List.mem_cons_of_mem _ hl, h2, h3, h4⟩
        · rintro (hr | ⟨l, hl, h2, h3, h4⟩)
          · exact Or.inl (List.mem_append.mpr (Or.inl hr))
          · rcases List.mem_cons.mp hl with he | he
            · subst he
              subst h3
              exact Or.inl (List.mem_append.mpr (Or.inr (List.mem_singleton.mpr rfl)))
            · exact Or.inr ⟨l, he, h2, h3, h4⟩
      · rw [if_neg hcond, ih]
        constructor
        · rintro (hr | ⟨l, hl, h2, h3, h4⟩)
          · exact Or.inl hr
          · exact Or.inr ⟨l, List.mem_cons_of_mem _ hl, h2, h3, h4⟩
        · rintro (hr | ⟨l, hl, h2, h3, h4⟩)
          · exact Or.inl hr
          · rcases List.mem_cons.mp hl with he | he
            · subst he
              subst h3
              rcases not_and_or.mp hcond with hc | hc
              · exact Or.inl (not_not.mp hc)
              · exact absurd h4 hc
            · exact Or.inr ⟨l, he, h2, h3, h4⟩
    · rw [if_neg hneg, ih]
      constructor
      · rintro (hr | ⟨l, hl, h2, h3, h4⟩)
        · exact Or.inl hr
        · exact Or.inr ⟨l, List.mem_cons_of_mem _ hl, h2, h3, h4⟩
      · rintro (hr | ⟨l, hl, h2, h3, h4⟩)
        · exact Or.inl hr
        · rcases List.mem_cons.mp hl with he | he
          · subst he; exact absurd h2 hneg
          · exact Or.inr ⟨l, he, h2, h3, h4⟩

/-- The generator loop of `resolution.py` never duplicates a resolvent. -/
theorem find_go_nodup (c1 c2 : Clause) :
    ∀ (lits : List Int) (acc : List Clause), acc.Nodup →
      (Res.find_go c1 c2 lits acc).Nodup := by
  intro lits
  induction lits with
  | nil => intro acc h; rw [Res.find_go]; exact h
  | cons l0 rest ih =>
    intro acc h
    rw [Res.find_go]
    by_cases hneg : (-l0) ∈ c2
    · rw [if_pos hneg]
      dsimp only
      by_cases hcond : Res.resolve c1 c2 l0 ∉ acc ∧
          is_redundant_clause (Res.resolve c1 c2 l0) = false
      · rw [if_pos hcond]
        refine ih _ ?_
        rw [List.nodup_append]
        refine ⟨h, List.nodup_singleton _, ?_⟩
        intro x hx hx2
        rw [List.mem_singleton] at hx2
        subst hx2
        exact hcond.1 hx
      · rw [if_neg hcond]; exact ih _ h
    · rw [if_neg hneg]; exact ih _ h

/-- What `dp.py`'s generator loop accumulates: as `resolution.py`'s, but
the empty resolvent is excluded too. -/
theorem dp_find_go_mem (c1 c2 : Clause) :
    ∀ (lits : List Int) (acc : List Clause) (r : Clause),
      r ∈ DP.find_resolvents_go c1 c2 lits acc ↔
        r ∈ acc ∨ ∃ l, l ∈ lits ∧ (-l) ∈ c2 ∧ r = Res.resolve c1 c2 l ∧
          is_redundant_clause r = false ∧ r ≠ [] := by
  intro lits
  induction lits with
  | nil => intro acc r; rw [DP.find_resolvents_go]; simp
  | cons l0 rest ih =>
    intro acc r
    rw [DP.find_resolvents_go]
    by_cases hneg : (-l0) ∈ c2
    · rw [if_pos hneg]
      dsimp only
      by_cases hcond : Res.resolve c1 c2 l0 ≠ [] ∧
          is_redundant_clause (Res.resolve c1 c2 l0) = false ∧
          Res.resolve c1 c2 l0 ∉ acc
      · rw [if_pos hcond, ih]
        constructor
        · rintro (hr | ⟨l, hl, h2, h3, h4, h5⟩)
          · rcases List.mem_append.mp hr with h | h
            · exact Or.inl h
            · have he := List.mem_singleton.mp h
              subst he
              exact Or.inr ⟨l0, List.mem_cons_self _ _, hneg, rfl, hcond.2.1, hcond.1⟩
          · exact Or.inr ⟨l, List.mem_cons_of_mem _ hl, h2, h3, h4, h5⟩
        · rintro (hr | ⟨l, hl, h2, h3, h4, h5⟩)
          · exact Or.inl (List.mem_append.mpr (Or.inl hr))
          · rcases List.mem_cons.mp hl with he | he
            · subst he
              subst h3
              exact Or.inl (List.mem_append.mpr (Or.inr (List.mem_singleton.mpr rfl)))
            · exact Or.inr ⟨l, he, h2, h3, h4, h5⟩
      · rw [if_neg hcond, ih]
        constructor
        · rintro (hr | ⟨l, hl, h2, h3, h4, h5⟩)
          · exact Or.inl hr
          · exact Or.inr ⟨l, List.mem_cons_of_mem _ hl, h2, h3, h4, h5⟩
        · rintro (hr | ⟨l, hl, h2, h3, h4, h5⟩)
          · exact Or.inl hr
          · rcases List.mem_cons.mp hl with he | he
            · subst he
              subst h3
              rcases not_and_or.mp hcond with hc | hc
              · exact absurd h5 hc
              · rcases not_and_or.mp hc with hc2 | hc2
                · exact absurd h4 hc2
                · exact Or.inl (not_not.mp hc2)
            · exact Or.inr ⟨l, he, h2, h3, h4, h5⟩
    · rw [if_neg hneg, ih]
      constructor
      · rintro (hr | ⟨l, hl, h2, h3, h4, h5⟩)
        · exact Or.inl hr
        · exact Or.inr ⟨l, List.mem_cons_of_mem _ hl, h2, h3, h4, h5⟩
      · rintro (hr | ⟨l, hl, h2, h3, h4, h5⟩)
        · exact Or.inl hr
        · rcases List.mem_cons.mp hl with he | he
          · subst he; exact absurd h2 hneg
          · exact Or.inr ⟨l, he, h2, h3, h4, h5⟩

/-- C6 (amended): resolution.py's generator returns exactly the clauses
resolve(c1,c2,l) = (c1 ∪ c2) minus the complementary pair, for the
literals l of c1 whose negation is in c2, excluding tautologies and
duplicates; dp.py's generator additionally excludes the empty resolvent. -/
theorem c6_generators_characterised :
    ∀ (c1 c2 : Clause) (r : Clause),
      (r ∈ Res.find_resolvents c1 c2 ↔
        ∃ l, l ∈ c1 ∧ (-l) ∈ c2 ∧ r = Res.resolve c1 c2 l ∧
          is_redundant_clause r = false) ∧
      (r ∈ DP.find_resolvents c1 c2 ↔
        ∃ l, l ∈ c1 ∧ (-l) ∈ c2 ∧ r = Res.resolve c1 c2 l ∧
          is_redundant_clause r = false ∧ r ≠ []) ∧
      (Res.find_resolvents c1 c2).Nodup ∧
      (∀ (l x : Int), x ∈ Res.resolve c1 c2 l ↔
        (x ∈ c1 ∨ x ∈ c2) ∧ x ≠ l ∧ x ≠ -l) := by
  intro c1 c2 r
  refine ⟨?_, ?_, ?_, ?_⟩
  · rw [Res.find_resolvents, find_go_mem]; simp
  · rw [DP.find_resolvents, dp_find_go_mem]; simp
  · exact find_go_nodup c1 c2 c1 [] List.nodup_nil
  · intro l x; exact resolve_mem

/-! ## Termination of the unit-propagation loops (C8) -/

/-- A list with a rejected member strictly shrinks under `filter`. -/
theorem length_filter_lt {α : Type} {p : α → Bool} :
    ∀ {xs : List α} {x : α}, x ∈ xs → p x = false →
      (xs.filter p).length < xs.length := by
  intro xs
  induction xs with
  | nil => intro x h; cases h
  | cons y rest ih =>
    intro x hx hp
    rcases List.mem_cons.mp hx with he | he
    · subst he
      rw [List.filter_cons_of_neg (by simp [hp])]
      exact Nat.lt_succ_of_le (List.length_filter_le _ _)
    · cases hy : p y
      · rw [List.filter_cons_of_neg (by simp [hy])]
        exact Nat.lt_succ_of_lt (ih he hp)
      · rw [List.filter_cons_of_pos (by simp [hy])]
        simpa using ih he hp

/-- `apply_literal` never adds clauses. -/
theorem apply_literal_length_le :
    ∀ {f : Formula} {l : Int} {f2 : Formula},
      DPLL.apply_literal f l = some f2 → f2.length ≤ f.length := by
  intro f
  induction f with
  | nil =>
    intro l f2 h
    rw [DPLL.apply_literal] at h
    injection h with h
    subst h
    exact Nat.le_refl _
  | cons c rest ih =>
    intro l f2 h
    rw [DPLL.apply_literal] at h
    by_cases h1 : l ∈ c
    · rw [if_pos h1] at h
      exact (ih h).trans (Nat.le_succ _)
    · rw [if_neg h1] at h
      by_cases h2 : DPLL.negate l ∈ c
      · rw [if_pos h2] at h
        dsimp only at h
        by_cases h3 : c.filter (fun x => !(x == DPLL.negate l)) = []
        · rw [if_pos h3] at h; cases h
        · rw [if_neg h3] at h
          rcases ha : DPLL.apply_literal rest l with _ | fr
          · rw [ha] at h; cases h
          · rw [ha] at h
            simp only [Option.map] at h
            injection h with h
            subst h
            simpa using ih ha
      · rw [if_neg h2] at h
        rcases ha : DPLL.apply_literal rest l with _ | fr
        · rw [ha] at h; cases h
        · rw [ha] at h
          simp only [Option.map] at h
          injection h with h
          subst h
          simpa using ih ha

/-- Applying a literal of a present clause strictly shrinks the formula
(the clause is satisfied and dropped). -/
theorem apply_literal_length_lt :
    ∀ {f : Formula} {l : Int} {f2 : Formula} {c : Clause},
      c ∈ f → l ∈ c → DPLL.apply_literal f l = some f2 → f2.length < f.length := by
  intro f
  induction f with
  | nil => intro l f2 c h; cases h
  | cons c0 rest ih =>
    intro l f2 c hc hl h
    rw [DPLL.apply_literal] at h
    rcases List.mem_cons.mp hc with he | he
    · subst he
      rw [if_pos hl] at h
      exact Nat.lt_succ_of_le (apply_literal_length_le h)
    · by_cases h1 : l ∈ c0
      · rw [if_pos h1] at h
        exact Nat.lt_succ_of_le (apply_literal_length_le h)
      · rw [if_neg h1] at h
        by_cases h2 : DPLL.negate l ∈ c0
        · rw [if_pos h2] at h
          dsimp only at h
          by_cases h3 : c0.filter (fun x => !(x == DPLL.negate l)) = []
          · rw [if_pos h3] at h; cases h
          · rw [if_neg h3] at h
            rcases ha : DPLL.apply_literal rest l with _ | fr
            · rw [ha] at h; cases h
            · rw [ha] at h
              simp only [Option.map] at h
              injection h with h
              subst h
              simpa using ih he hl ha
        · rw [if_neg h2] at h
          rcases ha : DPLL.apply_literal rest l with _ | fr
          · rw [ha] at h; cases h
          · rw [ha] at h
            simp only [Option.map] at h
            injection h with h
            subst h
            simpa using ih he hl ha

/-- A found unit literal is the literal of a unit clause of the list. -/
theorem find_unit_some_mem :
    ∀ {f : Formula} {l : Int}, DPLL.find_unit_clause f = some l → [l] ∈ f := by
  intro f
  induction f with
  | nil => intro l h; cases h
  | cons c rest ih =>
    intro l h
    rcases c with _ | ⟨x, _ | ⟨y, t⟩⟩
    · simp only [DPLL.find_unit_clause] at h
      exact List.mem_cons_of_mem _ (ih h)
    · simp only [DPLL.find_unit_clause] at h
      injection h with h
      subst h
      exact List.mem_cons_self _ _
    · simp only [DPLL.find_unit_clause] at h
      exact List.mem_cons_of_mem _ (ih h)

/-- With enough fuel (more than the clause count) the dpll.py
unit-propagation loop's answer no longer depends on the fuel: the loop
has terminated. -/
theorem up_go_fuel :
    ∀ (n : Nat) {m : Nat} {f : Formula} {acc : List Int},
      f.length < n → f.length < m →
      DPLL.up_go n f acc = DPLL.up_go m f acc := by
  intro n
  induction n with
  | zero => intro m f acc h; exact absurd h (Nat.not_lt_zero _)
  | succ n ih =>
    intro m f acc hn hm
    cases m with
    | zero => exact absurd hm (Nat.not_lt_zero _)
    | succ m =>
      rw [DPLL.up_go, DPLL.up_go]
      rcases hu : DPLL.find_unit_clause f with _ | l
      · rfl
      · dsimp only
        by_cases hl : l = 0
        · rw [if_pos hl, if_pos hl]
        · rw [if_neg hl, if_neg hl]
          rcases ha : DPLL.apply_literal f l with _ | f2
          · rfl
          · have hlt := apply_literal_length_lt (find_unit_some_mem hu)
              (List.mem_singleton.mpr rfl) ha
            exact ih (by omega) (by omega)

/-- The head of the captured unit list comes from a unit clause of the
list. -/
theorem dp_unit_literals_head :
    ∀ {cs : Formula} {l : Int} {rest : List Int},
      DP.dp_unit_literals cs = l :: rest → [l] ∈ cs := by
  intro cs
  induction cs with
  | nil => intro l rest h; cases h
  | cons c cs ih =>
    intro l rest h
    rcases c with _ | ⟨x, _ | ⟨y, t⟩⟩
    · simp only [DP.dp_unit_literals] at h
      exact List.mem_cons_of_mem _ (ih h)
    · simp only [DP.dp_unit_literals] at h
      injection h with h1 _
      subst h1
      exact List.mem_cons_self _ _
    · simp only [DP.dp_unit_literals] at h
      exact List.mem_cons_of_mem _ (ih h)

/-- One unit application in dp.py never adds clauses. -/
theorem dp_apply_unit_length_le (cs : Formula) (l : Int) :
    (DP.dp_apply_unit cs l).length ≤ cs.length := by
  unfold DP.dp_apply_unit
  rw [List.length_map]
  exact List.length_filter_le _ _

/-- Applying a captured unit drops its own unit clause. -/
theorem dp_apply_unit_length_lt {cs : Formula} {l : Int} (h : [l] ∈ cs) :
    (DP.dp_apply_unit cs l).length < cs.length := by
  unfold DP.dp_apply_unit
  rw [List.length_map]
  exact length_filter_lt h (by simp)

/-- A whole pass never adds clauses. -/
theorem dp_pass_length_le :
    ∀ (us : List Int) (st : Formula × List Int),
      ((DP.dp_pass us st).1).length ≤ st.1.length := by
  intro us
  induction us with
  | nil => intro st; rw [DP.dp_pass]
  | cons l rest ih =>
    intro st
    obtain ⟨cs, a⟩ := st
    rw [DP.dp_pass]
    exact (ih _).trans (dp_apply_unit_length_le cs l)

/-- A pass over a nonempty captured unit list strictly shrinks the
clause list: the first unit's own clause is dropped. -/
theorem dp_pass_length_lt (cs : Formula) (a : List Int) (l : Int)
    (rest : List Int) (h : [l] ∈ cs) :
    ((DP.dp_pass (l :: rest) (cs, a)).1).length < cs.length := by
  rw [DP.dp_pass]
  exact (dp_pass_length_le rest _).trans_lt (dp_apply_unit_length_lt h)

/-- With enough fuel the dp.py unit-propagation loop's answer no longer
depends on the fuel: the loop has terminated. -/
theorem dp_up_go_fuel :
    ∀ (n : Nat) {m : Nat} {cs : Formula} {a : List Int},
      cs.length < n → cs.length < m →
      DP.dp_up_go n cs a = DP.dp_up_go m cs a := by
  intro n
  induction n with
  | zero => intro m cs a h; exact absurd h (Nat.not_lt_zero _)
  | succ n ih =>
    intro m cs a hn hm
    cases m with
    | zero => exact absurd hm (Nat.not_lt_zero _)
    | succ m =>
      rw [DP.dp_up_go, DP.dp_up_go]
      rcases hu : DP.dp_unit_literals cs with _ | ⟨l, rest⟩
      · rfl
      · dsimp only
        have hlt := dp_pass_length_lt cs a l rest (dp_unit_literals_head hu)
        exact ih (by omega) (by omega)

/-- C8: each dpll.py propagation step strictly decreases the clause
count; each dp.py pass over a nonempty unit list strictly decreases the
clause count; hence both loops reach their fixpoint within `length`
steps — with fuel beyond that bound the result is fuel-independent. -/
theorem c8_unit_propagation_terminates :
    (∀ (f : Formula) (l : Int) (f2 : Formula), [l] ∈ f →
        DPLL.apply_literal f l = some f2 → f2.length < f.length) ∧
      (∀ (cs : Formula) (a : List Int) (l : Int) (rest : List Int),
        DP.dp_unit_literals cs = l :: rest →
        ((DP.dp_pass (l :: rest) (cs, a)).1).length < cs.length) ∧
      (∀ (n m : Nat) (f : Formula) (acc : List Int),
        f.length < n → f.length < m →
        DPLL.up_go n f acc = DPLL.up_go m f acc) ∧
      (∀ (n m : Nat) (cs : Formula) (a : List Int),
        cs.length < n → cs.length < m →
        DP.dp_up_go n cs a = DP.dp_up_go m cs a) :=
  ⟨fun _ _ _ hm ha =>
      apply_literal_length_lt hm (List.mem_singleton.mpr rfl) ha,
    fun cs a l rest hu => dp_pass_length_lt cs a l rest (dp_unit_literals_head hu),
    fun n _ _ _ hn hm => up_go_fuel n hn hm,
    fun n _ _ _ hn hm => dp_up_go_fuel n hn hm⟩

/-- C8 witness: every conjunct applied at the one-clause formula [[1]]. -/
theorem c8_witness :
    ([] : Formula).length < ([[1]] : Formula).length ∧
      ((DP.dp_pass [1] ([[1]], [])).1).length < ([[1]] : Formula).length ∧
      DPLL.up_go 2 [[1]] [] = DPLL.up_go 3 [[1]] [] ∧
      DP.dp_up_go 2 [[1]] [] = DP.dp_up_go 3 [[1]] [] :=
  ⟨c8_unit_propagation_terminates.1 [[1]] 1 [] (by decide) rfl,
    c8_unit_propagation_terminates.2.1 [[1]] [] 1 [] rfl,
    c8_unit_propagation_terminates.2.2.1 2 3 [[1]] [] (by decide) (by decide),
    c8_unit_propagation_terminates.2.2.2 2 3 [[1]] [] (by decide) (by decide)⟩

/-! ## No unit or empty clause reaches the branching heuristic (C9) -/

/-- `flatLits` on a cons. -/
theorem flatLits_cons (c : Clause) (f : Formula) :
    flatLits (c :: f) = c ++ flatLits f := by
  simp [flatLits]

/-- A literal of a member clause occurs in the flattening. -/
theorem mem_flatLits {x : Int} {c : Clause} {f : Formula}
    (hc : c ∈ f) (hx : x ∈ c) : x ∈ flatLits f := by
  simp only [flatLits, List.mem_flatMap]
  exact ⟨c, hc, hx⟩

/-- Literal occurrences survive `apply_literal` only from the input. -/
theorem apply_literal_flat_subset :
    ∀ {f : Formula} {l : Int} {f2 : Formula},
      DPLL.apply_literal f l = some f2 →
      ∀ x ∈ flatLits f2, x ∈ flatLits f := by
  intro f
  induction f with
  | nil =>
    intro l f2 h x hx
    rw [DPLL.apply_literal] at h
    injection h with h
    subst h
    simp [flatLits] at hx
  | cons c rest ih =>
    intro l f2 h x hx
    rw [DPLL.apply_literal] at h
    rw [flatLits_cons, List.mem_append]
    by_cases h1 : l ∈ c
    · rw [if_pos h1] at h
      exact Or.inr (ih h x hx)
    · rw [if_neg h1] at h
      by_cases h2 : DPLL.negate l ∈ c
      · rw [if_pos h2] at h
        dsimp only at h
        by_cases h3 : c.filter (fun y => !(y == DPLL.negate l)) = []
        · rw [if_pos h3] at h; cases h
        · rw [if_neg h3] at h
          rcases ha : DPLL.apply_literal rest l with _ | fr
          · rw [ha] at h; cases h
          · rw [ha] at h
            simp only [Option.map] at h
            injection h with h
            subst h
            rw [flatLits_cons, List.mem_append] at hx
            rcases hx with hx | hx
            · exact Or.inl (List.mem_filter.mp hx).1
            · exact Or.inr (ih ha x hx)
      · rw [if_neg h2] at h
        rcases ha : DPLL.apply_literal rest l with _ | fr
        · rw [ha] at h; cases h
        · rw [ha] at h
          simp only [Option.map] at h
          injection h with h
          subst h
          rw [flatLits_cons, List.mem_append] at hx
          rcases hx with hx | hx
          · exact Or.inl hx
          · exact Or.inr (ih ha x hx)

/-- If the loop hands back a formula and no literal is zero, the loop can
only have stopped because no unit clause is left, and the zero-freeness
is preserved. -/
theorem up_go_some_no_unit :
    ∀ (n : Nat) {f : Formula} {acc : List Int} {f1 : Formula} {a : List Int},
      f.length < n →
      (∀ x ∈ flatLits f, x ≠ 0) →
      DPLL.up_go n f acc = (some f1, a) →
      DPLL.find_unit_clause f1 = none ∧ ∀ x ∈ flatLits f1, x ≠ 0 := by
  intro n
  induction n with
  | zero => intro f acc f1 a h; exact absurd h (Nat.not_lt_zero _)
  | succ n ih =>
    intro f acc f1 a hn hz h
    rw [DPLL.up_go] at h
    rcases hu : DPLL.find_unit_clause f with _ | l
    · rw [hu] at h
      injection h with h1 h2
      injection h1 with h1
      subst h1
      exact ⟨hu, hz⟩
    · rw [hu] at h
      dsimp only at h
      by_cases hl : l = 0
      · subst hl
        have := hz 0 (mem_flatLits (find_unit_some_mem hu) (List.mem_singleton.mpr rfl))
        exact absurd rfl this
      · rw [if_neg hl] at h
        rcases ha : DPLL.apply_literal f l with _ | f2
        · rw [ha] at h
          injection h with h1 h2
          cases h1
        · rw [ha] at h
          have hlt := apply_literal_length_lt (find_unit_some_mem hu)
            (List.mem_singleton.mpr rfl) ha
          exact ih (by omega) (fun x hx => hz x (apply_literal_flat_subset ha x hx)) h

/-- After the loop stops normally, no clause of the result has length 1. -/
theorem find_unit_none_no_unit :
    ∀ {f : Formula}, DPLL.find_unit_clause f = none → ∀ c ∈ f, c.length ≠ 1 := by
  intro f
  induction f with
  | nil => intro h c hc; cases hc
  | cons c0 rest ih =>
    intro h c hc
    rcases c0 with _ | ⟨x, _ | ⟨y, t⟩⟩
    · rcases List.mem_cons.mp hc with he | he
      · subst he; simp
      · exact ih (by simpa [DPLL.find_unit_clause] using h) c he
    · simp [DPLL.find_unit_clause] at h
    · rcases List.mem_cons.mp hc with he | he
      · subst he; simp
      · exact ih (by simpa [DPLL.find_unit_clause] using h) c he

/-- The formula handed to the recursive monotone fixing loop only keeps
clauses of the running formula. -/
theorem mlf_go_mem :
    ∀ (orig cur : Formula) (a : List Int),
      ∀ c ∈ (DPLL.mlf_go orig cur a).1, c ∈ cur := by
  intro orig
  induction orig with
  | nil => intro cur a c hc; rwa [DPLL.mlf_go] at hc
  | cons c0 rest ih =>
    intro cur a c hc
    rw [DPLL.mlf_go] at hc
    rcases hf : c0.find? (fun l => !((flatLits cur).contains (-l))) with _ | l
    · rw [hf] at hc
      exact ih _ _ c hc
    · rw [hf] at hc
      exact (List.mem_filter.mp (ih _ _ c hc)).1

/-- The weight denominator is at least 8 from clause size 2 on. -/
theorem weight_den_ge_eight : ∀ (k : Nat), 2 ≤ k → (8 : Int) ≤ DPLL.weight_den k := by
  intro k hk
  induction k, hk using Nat.le_induction with
  | base => decide
  | succ k hk ih =>
    have h1 : DPLL.weight_den (k + 1) = 4 * DPLL.weight_den k + 2 * 2 ^ (k + 1) := by
      unfold DPLL.weight_den
      rw [pow_succ, pow_succ]
      ring
    have h2 : (0 : Int) ≤ 2 ^ (k + 1) := by positivity
    linarith

/-- C9: every formula that reaches the branching step of dpll (the
`Sum.inr` result of the prelude) has only clauses of size at least 2 —
unit propagation has removed the unit clauses, the empty-clause guards
have fired — so the C-SAT weight denominator is at least 8 and the
weight computation never divides by zero.  Literals are nonzero, as the
input collaborator guarantees. -/
theorem c9_no_short_clauses_at_branching :
    ∀ (f g : Formula) (a : List Int),
      (∀ x ∈ flatLits f, x ≠ 0) →
      DPLL.dpll_prelude f = Sum.inr (g, a) →
      ∀ c ∈ g, 2 ≤ c.length ∧ 8 ≤ DPLL.weight_den c.length := by
  intro f g a hz hpre c hc
  unfold DPLL.dpll_prelude at hpre
  rcases hup : DPLL.unit_propagation f with ⟨o, ua⟩
  rw [hup] at hpre
  rcases o with _ | f1
  · cases hpre
  · dsimp only at hpre
    by_cases h1 : [] ∈ f1
    · rw [if_pos h1] at hpre; cases hpre
    · rw [if_neg h1] at hpre
      have hsub : DPLL.unit_subsumption f1 ua =
          some (f1.filter (fun cl => !(cl.any (fun l => ua.contains l)))) := by
        unfold DPLL.unit_subsumption
        rw [if_neg h1]
      rw [hsub] at hpre
      dsimp only at hpre
      by_cases h2 : [] ∈ f1.filter (fun cl => !(cl.any (fun l => ua.contains l)))
      · rw [if_pos h2] at hpre; cases hpre
      · rw [if_neg h2] at hpre
        rcases hm : DPLL.monotone_literal_fixing
            (f1.filter (fun cl => !(cl.any (fun l => ua.contains l)))) with ⟨f3, ma⟩
        rw [hm] at hpre
        dsimp only at hpre
        by_cases h3 : f3 = []
        · rw [if_pos h3] at hpre; cases hpre
        · rw [if_neg h3] at hpre
          by_cases h4 : [] ∈ f3
          · rw [if_pos h4] at hpre; cases hpre
          · rw [if_neg h4] at hpre
            injection hpre with hpre
            injection hpre with hg hua
            subst hg
            have hcf1 : c ∈ f1 := by
              have hc3 : c ∈ f3 := hc
              have hstep : c ∈ f1.filter (fun cl => !(cl.any (fun l => ua.contains l))) := by
                have hmm := mlf_go_mem
                  (f1.filter (fun cl => !(cl.any (fun l => ua.contains l))))
                  (f1.filter (fun cl => !(cl.any (fun l => ua.contains l)))) [] c
                rw [DPLL.monotone_literal_fixing] at hm
                rw [hm] at hmm
                exact hmm hc3
              exact (List.mem_filter.mp hstep).1
            have hupf : DPLL.up_go (f.length + 1) f [] = (some f1, ua) := by
              unfold DPLL.unit_propagation at hup
              exact hup
            obtain ⟨hnu, _⟩ := up_go_some_no_unit (f.length + 1)
              (Nat.lt_succ_self _) hz hupf
            have hlen1 : c.length ≠ 1 := find_unit_none_no_unit hnu c hcf1
            have hlen0 : c.length ≠ 0 := by
              intro h0
              exact h4 (List.length_eq_zero.mp h0 ▸ hc)
            have hlen : 2 ≤ c.length := by omega
            exact ⟨hlen, weight_den_ge_eight _ hlen⟩

/-- C9 witness: the theorem applied to the formula
[[1,2],[-1,2],[1,-2],[-1,-2]], whose prelude reaches branching
unchanged. -/
theorem c9_witness :
    2 ≤ ([1, 2] : Clause).length ∧ 8 ≤ DPLL.weight_den ([1, 2] : Clause).length :=
  c9_no_short_clauses_at_branching [[1, 2], [-1, 2], [1, -2], [-1, -2]]
    [[1, 2], [-1, 2], [1, -2], [-1, -2]] [] (by decide) rfl [1, 2] (by decide)
